import Mathlib

/-!
Shallow embedding of `licenses.py` (qt-3rdparty-licenses).

Python strings are modelled as `List Char` (`PyStr`).  Python exceptions
(`IndexError` on out-of-range indexing) are modelled with `Except Unit`.
Python negative indexing (an index `-k` reads from the end of the string)
and the slice normalisation applied by `str.find` and slicing are
modelled explicitly, because `Makefile.has_path` passes the `-1`
returned by a failed `find` straight back into `find` as an end bound.

`pathlib` is modelled for POSIX paths: parsing drops empty and `.`
components, `str()` of a path carries no trailing separator, `name` is
the last component and `suffix` the final extension.  `Path.resolve()`
(used by `Makefile._sanitise` with the current directory set to the
makefile directory) is modelled as lexical normalisation against an
absolute makefile directory; symbolic links and the POSIX double-slash
root special case are not modelled.
-/

abbrev PyStr := List Char

/-- Separator set used by `Makefile.has_path`: space, newline, tab. -/
def isSep (c : Char) : Bool := c == ' ' || c == '\n' || c == '\t'

/-- Python `s.split(c)` for a one-character separator; `"".split(c)` is `[""]`. -/
def pySplitChar (c : Char) (s : PyStr) : List PyStr :=
  match s with
  | [] => [[]]
  | a :: rest =>
    match pySplitChar c rest with
    | [] => [[]]
    | t :: ts => if a = c then [] :: t :: ts else (a :: t) :: ts

/-- Python `sep.join(xs)`. -/
def pyJoin (sep : PyStr) : List PyStr → PyStr
  | [] => []
  | [x] => x
  | x :: y :: rest => x ++ sep ++ pyJoin sep (y :: rest)

/-- Python `s.rstrip(",")`: drop all trailing commas. -/
def pyRstripComma (s : PyStr) : PyStr :=
  (s.reverse.dropWhile (fun c => c == ',')).reverse

/-- Python `s.startswith(p)`. -/
def pyStartswith (s p : PyStr) : Bool := p.isPrefixOf s

/-- Does `sub` occur in `data` at position `i`? -/
def matchAt (data sub : PyStr) (i : Nat) : Bool := sub.isPrefixOf (data.drop i)

/-- Python slice normalisation of a start bound: negative bounds count from
the end (clamped below at 0); non-negative bounds are kept as they are. -/
def pyNormStart (n : Nat) (k : Int) : Nat :=
  if k < 0 then ((n : Int) + k).toNat else k.toNat

/-- Python slice normalisation of an end bound: negative bounds count from
the end (clamped below at 0); non-negative bounds are clamped above at `n`. -/
def pyNormEnd (n : Nat) (k : Int) : Nat :=
  if k < 0 then ((n : Int) + k).toNat else min k.toNat n

/-- Leftmost occurrence of `sub` inside `data[lo:hi]` (the whole occurrence
must fit inside the bounds), as in CPython `str.find`. -/
def pyFindCore (data sub : PyStr) (lo hi : Nat) : Option Nat :=
  ((List.range (data.length + 1)).filter
    (fun i => decide (lo ≤ i) && decide (i + sub.length ≤ hi) && matchAt data sub i)).head?

/-- Python `data.find(sub, s, e)`: slice-normalised bounds, `-1` when not found. -/
def pyFindSE (data sub : PyStr) (s e : Int) : Int :=
  match pyFindCore data sub (pyNormStart data.length s) (pyNormEnd data.length e) with
  | some i => (i : Int)
  | none => -1

/-- Python `data.find(sub)`. -/
def pyFindFull (data sub : PyStr) : Int := pyFindSE data sub 0 data.length

/-- Python index normalisation: a negative index counts from the end. -/
def idxInt (n : Nat) (k : Int) : Int := if k < 0 then (n : Int) + k else k

/-- The character an in-range Python index `data[k]` reads. -/
def pyAt (data : PyStr) (k : Int) : Char := data.getD (idxInt data.length k).toNat ' '

/-- Python `data[k]`: `IndexError` when the normalised index is out of range. -/
def pyIndex (data : PyStr) (k : Int) : Except Unit Char :=
  if 0 ≤ idxInt data.length k ∧ idxInt data.length k < (data.length : Int)
  then .ok (pyAt data k) else .error ()

/-- Python `data[a:b]`. -/
def pySlice (data : PyStr) (a b : Int) : PyStr :=
  (data.take (pyNormEnd data.length b)).drop (pyNormStart data.length a)

/-- Path components of `pathlib.PurePosixPath(s)`: split on the separator,
dropping empty and `.` components. -/
def pathParts (s : PyStr) : List PyStr :=
  (pySplitChar '/' s).filter (fun p => decide (p ≠ [] ∧ p ≠ ['.']))

/-- Is the path absolute (leading separator)? -/
def pathIsAbs (s : PyStr) : Bool :=
  match s with
  | '/' :: _ => true
  | _ => false

/-- `str(pathlib.Path(s))`: normalised, with no trailing separator;
the empty relative path prints as `.`. -/
def pathStr (s : PyStr) : PyStr :=
  let ps := pathParts s
  if pathIsAbs s then '/' :: pyJoin ['/'] ps
  else if ps = [] then ['.'] else pyJoin ['/'] ps

/-- `pathlib.Path(s).name`: the final component (empty for the root). -/
def pathName (s : PyStr) : PyStr := (pathParts s).getLastD []

/-- Index of the last `.` in a file name, if any. -/
def lastDotIdx (nm : PyStr) : Option Nat :=
  ((List.range nm.length).filter (fun i => decide (nm.getD i ' ' = '.'))).getLast?

/-- `pathlib.Path(s).suffix`: the final extension of the name, empty when the
only dot leads the name or ends it. -/
def pathSuffix (s : PyStr) : PyStr :=
  let nm := pathName s
  match lastDotIdx nm with
  | none => []
  | some i => if 0 < i ∧ i + 1 < nm.length then nm.drop i else []

/-- `str(pathlib.Path(a) / b)`: joining with an absolute `b` replaces `a`;
an empty `b` contributes nothing. -/
def pathJoinStr (a b : PyStr) : PyStr :=
  if pathIsAbs b then pathStr b
  else
    let ps := pathParts a ++ pathParts b
    if pathIsAbs a then '/' :: pyJoin ['/'] ps
    else if ps = [] then ['.'] else pyJoin ['/'] ps

/-- The five catalog attributes of one third-party library record
(the `_data` dictionary of `Library`). -/
structure LibAttrs where
  Id : PyStr
  Path : PyStr
  Files : PyStr
  LicenseFile : PyStr
  Copyright : PyStr
  deriving DecidableEq

/-- `Library.files`: the `Files` attribute split on spaces, each token with
trailing commas stripped.  Note that in Python `"".split(" ")` is `[""]`,
so this function never returns an empty list. -/
def Library.files (l : LibAttrs) : List PyStr :=
  (pySplitChar ' ' l.Files).map pyRstripComma

/-- `Library.signatures`.  The first branch joins the path with every parsed
file name.  The second branch (path with a file-type suffix) and the third
branch are unreachable, because `Library.files` never returns an empty list
(lemma `files_ne_nil` below); in the source the third branch enumerates the
directory on the filesystem with `rglob`, which a pure model cannot and,
being unreachable, need not represent — it is modelled as `[]`.
The memoisation cache `_signatures` of the source is transparent to callers
and is not modelled. -/
def Library.signatures (l : LibAttrs) : List PyStr :=
  let lib_filenames := Library.files l
  if lib_filenames ≠ [] then lib_filenames.map (fun nm => pathJoinStr l.Path nm)
  else if pathSuffix l.Path ≠ [] then [pathStr l.Path]
  else []

/-- `WebgradientsLib.signatures`: take the first inherited signature, split it
on dots, replace the final dot component with `binaryjson`, and re-join.
The source indexes `[0]`, which would raise on an empty list; the inherited
list is provably never empty, and the `[]` branch is a dead default. -/
def WebgradientsLib.signatures (l : LibAttrs) : List PyStr :=
  match Library.signatures l with
  | [] => []
  | fp :: _ =>
    [pyJoin ['.'] ((pySplitChar '.' fp).dropLast ++ ["binaryjson".toList])]

/-- The compile-section start marker of `Makefile.has_path`. -/
def compileMarker : PyStr := "####### Compile".toList

/-- The compile-section end marker of `Makefile.has_path`. -/
def installMarker : PyStr := "####### Install".toList

/-- Strip a leading decoration if present (one step of the loop in
`Makefile._sanitise`). -/
def stripPre (p s : PyStr) : PyStr := if p.isPrefixOf s then s.drop p.length else s

/-- Lexical `..` handling of `Path.resolve`: a `..` component pops the last
accumulated component (at the root it is dropped). -/
def resolveParts (ps : List PyStr) : List PyStr :=
  ps.foldl (fun acc p => if p = ['.', '.'] then acc.dropLast else acc ++ [p]) []

/-- `pathlib.Path(s).resolve()` evaluated with the current directory set to
`mfdir` (assumed absolute and normalised), without symbolic links. -/
def Makefile.resolvePath (mfdir s : PyStr) : PyStr :=
  let base := if pathIsAbs s then s else mfdir ++ '/' :: s
  '/' :: pyJoin ['/'] (resolveParts (pathParts base))

/-- `Makefile._sanitise`: `s[-1]` raises on the empty token; a token ending
in a colon (a rule target) becomes the empty string; the `-I` and
`$(INSTALL_ROOT)` decorations are stripped in that order; the rest is
resolved against the makefile directory. -/
def Makefile.sanitise (mfdir s : PyStr) : Except Unit PyStr :=
  match s.getLast? with
  | none => .error ()
  | some c =>
    if c = ':' then .ok []
    else
      .ok (Makefile.resolvePath mfdir
        (stripPre "$(INSTALL_ROOT)".toList (stripPre "-I".toList s)))

/-- The leftward boundary scan `while data[start] not in separators: start -= 1`.
The fuel only bounds the traversal; `2 * data.length + 2` steps always reach a
separator or an out-of-range index, so exhaustion is unreachable from
`Makefile.scanLoop`. -/
def expandLeft (data : PyStr) : Int → Nat → Except Unit Int
  | _, 0 => .error ()
  | j, fuel + 1 =>
    match pyIndex data j with
    | .error e => .error e
    | .ok c => if isSep c then .ok j else expandLeft data (j - 1) fuel

/-- The rightward boundary scan `while data[end] not in separators: end += 1`. -/
def expandRight (data : PyStr) : Int → Nat → Except Unit Int
  | _, 0 => .error ()
  | j, fuel + 1 =>
    match pyIndex data j with
    | .error e => .error e
    | .ok c => if isSep c then .ok j else expandRight data (j + 1) fuel

/-- The `while i != -1` loop of `Makefile.has_path`.  Each iteration recovers
the token around occurrence `i`, sanitises it and compares it with the
candidate; on failure the next occurrence is looked up from `en + 1`.  The
occurrence index strictly increases, so `data.length + 2` fuel is never
exhausted when called from `Makefile.has_path`. -/
def Makefile.scanLoop (mfdir data pstr name : PyStr) (saEnd : Int) :
    Int → Nat → Except Unit Bool
  | _, 0 => .error ()
  | i, fuel + 1 =>
    if i = -1 then .ok false
    else
      match expandLeft data i (2 * data.length + 2) with
      | .error e => .error e
      | .ok s =>
        match expandRight data i (2 * data.length + 2) with
        | .error e => .error e
        | .ok en =>
          match Makefile.sanitise mfdir (pySlice data (s + 1) en) with
          | .error e => .error e
          | .ok t =>
            if pyStartswith t pstr then .ok true
            else
              Makefile.scanLoop mfdir data pstr name saEnd
                (pyFindSE data name (en + 1) saEnd) fuel

/-- `Makefile.has_path(path)`: `mfdir` is the directory of the makefile
(`self.file_path.parent`), `data` its text, `cand` the candidate path. -/
def Makefile.has_path (mfdir data cand : PyStr) : Except Unit Bool :=
  let saStart := pyFindFull data compileMarker
  if saStart = -1 then .ok false
  else
    let saEnd := pyFindFull data installMarker
    Makefile.scanLoop mfdir data (pathStr cand) (pathName cand) saEnd
      (pyFindSE data (pathName cand) saStart saEnd) (data.length + 2)

/-- The `for sig in self.signatures` loop of `Library.used`. -/
def Library.usedAux (mfdir data : PyStr) : List PyStr → Except Unit Bool
  | [] => .ok false
  | sig :: rest =>
    match Makefile.has_path mfdir data sig with
    | .error e => .error e
    | .ok b => if b then .ok true else Library.usedAux mfdir data rest

/-- The class dispatch of `libraries_factory`: the record whose id is
`webgradients` gets `WebgradientsLib.signatures`, every other record
`Library.signatures`. -/
def factorySignatures (l : LibAttrs) : List PyStr :=
  if l.Id = "webgradients".toList then WebgradientsLib.signatures l
  else Library.signatures l

/-- `Library.used(makefile)`: true when any signature is found in the script. -/
def Library.used (mfdir data : PyStr) (l : LibAttrs) : Except Unit Bool :=
  Library.usedAux mfdir data (factorySignatures l)

/-- Did `Library.used` run to completion and report a match? -/
def usedTrue (mfdir data : PyStr) (l : LibAttrs) : Bool :=
  match Library.used mfdir data l with
  | .ok true => true
  | _ => false

/-- The inner loop of `export_used_licenses` for one makefile: walk a
snapshot of the pending set, exporting (first component) and removing
matched libraries, keeping the rest pending (second component).  The first
exception raised by `Library.used` aborts the run. -/
def processScript (mfdir data : PyStr) :
    List LibAttrs → Except Unit (List LibAttrs × List LibAttrs)
  | [] => .ok ([], [])
  | l :: ls =>
    match Library.used mfdir data l with
    | .error e => .error e
    | .ok u =>
      match processScript mfdir data ls with
      | .error e => .error e
      | .ok (ex, rem) => .ok (if u then (l :: ex, rem) else (ex, l :: rem))

/-- The outer loop of `export_used_licenses`: process each build script in
order against the pending set, accumulating the trace of exported libraries
(first component) and the final pending set (second component). -/
def detectRun :
    List LibAttrs → List (PyStr × PyStr) → Except Unit (List LibAttrs × List LibAttrs)
  | pending, [] => .ok ([], pending)
  | pending, sc :: ss =>
    match processScript sc.1 sc.2 pending with
    | .error e => .error e
    | .ok (ex, rem) =>
      match detectRun rem ss with
      | .error e => .error e
      | .ok (tr, fin) => .ok (ex ++ tr, fin)

/-- `[a, b)` is a maximal separator-delimited token of `data`: nonempty,
separator-free, delimited on the left by the text start or a separator and
on the right by a separator. -/
def isWholeToken (data : PyStr) (a b : Nat) : Prop :=
  a < b ∧ b < data.length ∧
  (∀ k, a ≤ k → k < b → isSep (data.getD k ' ') = false) ∧
  (a = 0 ∨ isSep (data.getD (a - 1) ' ') = true) ∧
  isSep (data.getD b ' ') = true

/-- Sample record with empty `Files` and a directory `Path` without suffix. -/
def pcre2Rec : LibAttrs :=
  { Id := "pcre2".toList, Path := "/src/3rdparty/pcre2".toList,
    Files := [], LicenseFile := [], Copyright := [] }

/-- Sample record with a comma-and-space separated `Files` attribute. -/
def zlibRec : LibAttrs :=
  { Id := "zlib".toList, Path := "/src/3rdparty/zlib".toList,
    Files := "inflate.c, deflate.c".toList, LicenseFile := [], Copyright := [] }

/-- Sample record with neither a path nor files. -/
def emptyRec : LibAttrs :=
  { Id := "x".toList, Path := [], Files := [], LicenseFile := [], Copyright := [] }

/-- Sample record for the special-cased webgradients library. -/
def wgRec : LibAttrs :=
  { Id := "webgradients".toList, Path := "/qt/3p/webgradients".toList,
    Files := "webgradients.css".toList, LicenseFile := [], Copyright := [] }

/-- Sample record matched by `scriptA` and `scriptA2`. -/
def libARec : LibAttrs :=
  { Id := "a".toList, Path := "/q/liba".toList,
    Files := "f.c".toList, LicenseFile := [], Copyright := [] }

/-- Sample record matched by no sample script. -/
def libBRec : LibAttrs :=
  { Id := "b".toList, Path := "/q/libb".toList,
    Files := "g.c".toList, LicenseFile := [], Copyright := [] }

/-- Sample build script (makefile directory, text) referencing `libARec`. -/
def scriptA : PyStr × PyStr :=
  ("/b".toList, "####### Compile\n/q/liba/f.c\n".toList)

/-- Sample build script referencing no sample record. -/
def scriptN : PyStr × PyStr :=
  ("/b".toList, "####### Compile\n/z/none.c\n".toList)

/-- A second sample build script also referencing `libARec`. -/
def scriptA2 : PyStr × PyStr :=
  ("/b".toList, "####### Compile\ngcc /q/liba/f.c\n".toList)

lemma pySplitChar_cons_eq (c a : Char) (rest t : PyStr) (ts : List PyStr)
    (h : pySplitChar c rest = t :: ts) :
    pySplitChar c (a :: rest) = if a = c then [] :: t :: ts else (a :: t) :: ts := by
  rw [pySplitChar, h]

lemma pySplitChar_ne_nil (c : Char) (s : PyStr) : pySplitChar c s ≠ [] := by
  induction s with
  | nil => simp [pySplitChar]
  | cons a rest ih =>
    cases h : pySplitChar c rest with
    | nil => exact absurd h ih
    | cons t ts =>
      rw [pySplitChar_cons_eq c a rest t ts h]
      split <;> simp

lemma files_ne_nil (l : LibAttrs) : Library.files l ≠ [] := by
  intro h
  rw [Library.files, List.map_eq_nil_iff] at h
  exact pySplitChar_ne_nil _ _ h

lemma pyJoin_cons_cons (sep : PyStr) (a : Char) (t : PyStr) (ts : List PyStr) :
    pyJoin sep ((a :: t) :: ts) = a :: pyJoin sep (t :: ts) := by
  cases ts with
  | nil => rfl
  | cons u us => simp [pyJoin]

lemma pyJoin_nil_cons (sep : PyStr) (t : PyStr) (ts : List PyStr) :
    pyJoin sep ([] :: t :: ts) = sep ++ pyJoin sep (t :: ts) := by
  simp [pyJoin]

lemma pyJoin_split (c : Char) (s : PyStr) : pyJoin [c] (pySplitChar c s) = s := by
  induction s with
  | nil => simp [pySplitChar, pyJoin]
  | cons a rest ih =>
    cases hr : pySplitChar c rest with
    | nil => exact absurd hr (pySplitChar_ne_nil c rest)
    | cons t ts =>
      rw [hr] at ih
      rw [pySplitChar_cons_eq c a rest t ts hr]
      by_cases hac : a = c
      · subst hac
        rw [if_pos rfl, pyJoin_nil_cons, ih]
        rfl
      · rw [if_neg hac, pyJoin_cons_cons, ih]

lemma pySplitChar_append_cons (c : Char) (s t : PyStr) :
    pySplitChar c (s ++ c :: t) = pySplitChar c s ++ pySplitChar c t := by
  induction s with
  | nil =>
    rw [List.nil_append]
    cases h : pySplitChar c t with
    | nil => exact absurd h (pySplitChar_ne_nil c t)
    | cons t0 ts =>
      rw [pySplitChar_cons_eq c c t t0 ts h, if_pos rfl, pySplitChar]
      rfl
  | cons a s ih =>
    cases hs : pySplitChar c s with
    | nil => exact absurd hs (pySplitChar_ne_nil c s)
    | cons s0 ss =>
      rw [List.cons_append,
        pySplitChar_cons_eq c a (s ++ c :: t) (s0 ++ [] ) (ss ++ pySplitChar c t) ?heq,
        pySplitChar_cons_eq c a s s0 ss hs]
      case heq => rw [ih, hs]; simp
      by_cases hac : a = c
      · rw [if_pos hac, if_pos hac]; simp
      · rw [if_neg hac, if_neg hac]; simp

lemma pySplitChar_of_not_mem (c : Char) (t : PyStr) (h : c ∉ t) :
    pySplitChar c t = [t] := by
  induction t with
  | nil => rfl
  | cons a rest ih =>
    have ha : ¬a = c := by
      intro hq; exact h (hq ▸ List.mem_cons_self a rest)
    have hr : c ∉ rest := fun hm => h (List.mem_cons_of_mem a hm)
    rw [pySplitChar_cons_eq c a rest rest [] (ih hr), if_neg ha]

lemma pyJoin_append_singleton (sep : PyStr) (xs : List PyStr) (y : PyStr)
    (h : xs ≠ []) :
    pyJoin sep (xs ++ [y]) = pyJoin sep xs ++ sep ++ y := by
  induction xs with
  | nil => exact absurd rfl h
  | cons x xs ih =>
    cases xs with
    | nil => simp [pyJoin]
    | cons u us =>
      have ih' := ih (by simp)
      rw [List.cons_append]
      rw [show pyJoin sep (x :: (u :: us ++ [y])) =
            x ++ sep ++ pyJoin sep (u :: us ++ [y]) from rfl]
      rw [show (u :: us ++ [y] : List PyStr) = (u :: us) ++ [y] from rfl, ih']
      rw [show pyJoin sep (x :: u :: us) = x ++ sep ++ pyJoin sep (u :: us) from rfl]
      simp [List.append_assoc]

lemma pathParts_mem_ne_nil (s p : PyStr) (hp : p ∈ pathParts s) : p ≠ [] := by
  rw [pathParts] at hp
  have h2 := (List.mem_filter.mp hp).2
  exact (of_decide_eq_true h2).1

lemma pathStr_ne_nil (s : PyStr) : pathStr s ≠ [] := by
  rw [pathStr]
  by_cases habs : pathIsAbs s
  · simp [habs]
  · simp only [habs, Bool.false_eq_true, if_false]
    cases hps : pathParts s with
    | nil => simp
    | cons p rest =>
      have hp : p ≠ [] := pathParts_mem_ne_nil s p (hps ▸ List.mem_cons_self p rest)
      simp only [if_neg (by simp : ¬(p :: rest : List PyStr) = [])]
      cases rest with
      | nil => simpa [pyJoin] using hp
      | cons u us => simp [pyJoin]

lemma WebgradientsLib.signatures_cons_eq (l : LibAttrs) (fp : PyStr)
    (rest : List PyStr) (h : Library.signatures l = fp :: rest) :
    WebgradientsLib.signatures l =
      [pyJoin ['.'] ((pySplitChar '.' fp).dropLast ++ ["binaryjson".toList])] := by
  rw [WebgradientsLib.signatures, h]

/-- C8: for the special-cased webgradients record, the signatures operation
returns exactly one signature, equal to the natural source-file signature
(the first inherited signature) with its final extension replaced by the
precompiled `binaryjson` extension. -/
theorem webgradients_signature_rewrite (l : LibAttrs) (stem ext : PyStr)
    (rest : List PyStr)
    (h1 : Library.signatures l = (stem ++ '.' :: ext) :: rest)
    (h2 : '.' ∉ ext) :
    WebgradientsLib.signatures l = [stem ++ '.' :: ("binaryjson".toList)] := by
  rw [WebgradientsLib.signatures_cons_eq l _ rest h1]
  rw [pySplitChar_append_cons, pySplitChar_of_not_mem '.' ext h2,
    List.dropLast_concat,
    pyJoin_append_singleton ['.'] _ _ (pySplitChar_ne_nil '.' stem),
    pyJoin_split]
  simp

/-- C8 witness: the sample webgradients record; its natural signature ends in
the stylesheet extension, the rewritten signature in the precompiled one, and
a build script referencing only the precompiled file name matches. -/
theorem webgradients_signature_rewrite_witness :
    Library.signatures wgRec =
      ("/qt/3p/webgradients/webgradients".toList ++ '.' :: "css".toList) :: [] ∧
    '.' ∉ "css".toList ∧
    WebgradientsLib.signatures wgRec =
      ["/qt/3p/webgradients/webgradients".toList ++ '.' :: "binaryjson".toList] ∧
    Makefile.has_path "/b".toList
      "####### Compile\n/qt/3p/webgradients/webgradients.binaryjson\n".toList
      ("/qt/3p/webgradients/webgradients".toList ++ '.' :: "binaryjson".toList) = .ok true :=
  ⟨by rfl, by decide,
    webgradients_signature_rewrite wgRec _ _ [] (by rfl) (by decide), by rfl⟩

/-- C4: for a record with a non-empty `Files` attribute, `signatures` has one
entry per parsed file token, each equal to the path joined with the trimmed
file name. -/
theorem signatures_from_files (l : LibAttrs) (h : l.Files ≠ []) :
    Library.signatures l = (Library.files l).map (fun nm => pathJoinStr l.Path nm) ∧
    (Library.signatures l).length = (Library.files l).length := by
  have hmain : Library.signatures l =
      (Library.files l).map (fun nm => pathJoinStr l.Path nm) := by
    simp only [Library.signatures]
    rw [if_pos (files_ne_nil l)]
  exact ⟨hmain, by rw [hmain, List.length_map]⟩

/-- C4 witness: the zlib sample record with `Files = "inflate.c, deflate.c"`. -/
theorem signatures_from_files_witness :
    zlibRec.Files ≠ [] ∧
    (Library.signatures zlibRec =
        (Library.files zlibRec).map (fun nm => pathJoinStr zlibRec.Path nm) ∧
      (Library.signatures zlibRec).length = (Library.files zlibRec).length) ∧
    Library.signatures zlibRec =
      ["/src/3rdparty/zlib/inflate.c".toList, "/src/3rdparty/zlib/deflate.c".toList] :=
  ⟨by decide, signatures_from_files zlibRec (by decide), by rfl⟩

/-- C9: a record with an empty path and no files yields the single degenerate
signature `.` without failing and without touching the filesystem (the
function is total and pure). -/
theorem signatures_degenerate (l : LibAttrs) (h1 : l.Path = []) (h2 : l.Files = []) :
    Library.signatures l = [['.']] := by
  simp only [Library.signatures, Library.files, h1, h2]
  decide

/-- C9 witness: the sample record with no path and no files. -/
theorem signatures_degenerate_witness :
    emptyRec.Path = [] ∧ emptyRec.Files = [] ∧ Library.signatures emptyRec = [['.']] :=
  ⟨rfl, rfl, signatures_degenerate emptyRec rfl rfl⟩

/-- C3: a record with an empty `Files` attribute and a directory path with no
suffix.  Python `"".split(" ")` is `[""]`, which is truthy, so the file
branch runs with the single empty name and the signature is the normalised
path with NO trailing separator — not the `path + separator` promised by the
claim and by the docstring of `Library.signatures` (the directory branch is
dead code). -/
theorem signatures_empty_files_eval :
    Library.files pcre2Rec = [[]] ∧
    Library.signatures pcre2Rec = ["/src/3rdparty/pcre2".toList] :=
  ⟨by rfl, by rfl⟩

/-- C1: a directory-prefix candidate `/q/pcre2/` does match a token inside
the directory, but — against the claim — it also matches a token in the
sibling directory `/q/pcre2-extra/`, because `pathlib.Path` strips the
trailing separator before the `startswith` comparison (third conjunct). -/
theorem has_path_dir_signature_eval :
    Makefile.has_path "/b".toList "####### Compile\n/q/pcre2/src/pcre2.c\n".toList
      "/q/pcre2/".toList = .ok true ∧
    Makefile.has_path "/b".toList "####### Compile\n/q/pcre2-extra/file.c\n".toList
      "/q/pcre2/".toList = .ok true ∧
    pathStr "/q/pcre2/".toList = "/q/pcre2".toList :=
  ⟨by rfl, by rfl, by rfl⟩

/-- C5: with the start marker present and no install marker (first conjunct),
an occurrence of the candidate occupying the final characters of the text is
NOT matched (second conjunct), because the `-1` returned by the failed
`find` is passed as an end bound and slice-normalises to `length - 1`; the
same text with one trailing newline appended is matched (third conjunct). -/
theorem has_path_region_end_eval :
    pyFindFull "####### Compile\n/a/foo".toList installMarker = -1 ∧
    Makefile.has_path "/b".toList "####### Compile\n/a/foo".toList
      "/a/foo".toList = .ok false ∧
    Makefile.has_path "/b".toList "####### Compile\n/a/foo\n".toList
      "/a/foo".toList = .ok true :=
  ⟨by rfl, by rfl, by rfl⟩

/-- C10: the rightward token expansion runs past the end of the text when the
token containing the occurrence reaches the final character with no trailing
separator: `data[end]` is evaluated at `end = len(data)` and raises
`IndexError` (modelled as `.error ()`). -/
theorem has_path_index_error_eval :
    Makefile.has_path "/b".toList "####### Compile fooX".toList "foo".toList =
      .error () := by
  rfl

lemma idxInt_of_nonneg (n : Nat) (k : Int) (h : 0 ≤ k) : idxInt n k = k := by
  rw [idxInt, if_neg (by omega)]

lemma pyIndex_ok (data : PyStr) (k : Int) (c : Char) (h : pyIndex data k = .ok c) :
    0 ≤ idxInt data.length k ∧ idxInt data.length k < (data.length : Int) ∧
      c = pyAt data k := by
  rw [pyIndex] at h
  split at h
  · rename_i hc
    injection h with h
    exact ⟨hc.1, hc.2, h.symm⟩
  · exact Except.noConfusion h

lemma expandLeft_spec (data : PyStr) :
    ∀ (fuel : Nat) (j s : Int), expandLeft data j fuel = .ok s →
      s ≤ j ∧ 0 ≤ idxInt data.length s ∧ idxInt data.length s < (data.length : Int) ∧
      isSep (pyAt data s) = true ∧
      ∀ k : Int, s < k → k ≤ j →
        0 ≤ idxInt data.length k ∧ idxInt data.length k < (data.length : Int) ∧
        isSep (pyAt data k) = false := by
  intro fuel
  induction fuel with
  | zero =>
    intro j s h
    simp [expandLeft] at h
  | succ f ih =>
    intro j s h
    rw [expandLeft] at h
    cases hpi : pyIndex data j with
    | error e => simp [hpi] at h
    | ok c =>
      simp only [hpi] at h
      obtain ⟨h1, h2, hc⟩ := pyIndex_ok data j c hpi
      by_cases hsep : isSep c = true
      · rw [if_pos hsep] at h
        injection h with h
        subst h
        refine ⟨le_refl _, h1, h2, by rw [← hc]; exact hsep, ?_⟩
        intro k hk1 hk2
        omega
      · rw [if_neg hsep] at h
        obtain ⟨ha, hb, hcv, hd, he⟩ := ih (j - 1) s h
        refine ⟨by omega, hb, hcv, hd, ?_⟩
        intro k hk1 hk2
        rcases eq_or_lt_of_le hk2 with rfl | hlt
        · have hf : isSep c = false := by
            revert hsep; cases isSep c <;> simp
          exact ⟨h1, h2, by rw [← hc]; exact hf⟩
        · exact he k hk1 (by omega)

lemma expandRight_spec (data : PyStr) :
    ∀ (fuel : Nat) (j e : Int), expandRight data j fuel = .ok e →
      j ≤ e ∧ 0 ≤ idxInt data.length e ∧ idxInt data.length e < (data.length : Int) ∧
      isSep (pyAt data e) = true ∧
      ∀ k : Int, j ≤ k → k < e →
        0 ≤ idxInt data.length k ∧ idxInt data.length k < (data.length : Int) ∧
        isSep (pyAt data k) = false := by
  intro fuel
  induction fuel with
  | zero =>
    intro j e h
    simp [expandRight] at h
  | succ f ih =>
    intro j e h
    rw [expandRight] at h
    cases hpi : pyIndex data j with
    | error er => simp [hpi] at h
    | ok c =>
      simp only [hpi] at h
      obtain ⟨h1, h2, hc⟩ := pyIndex_ok data j c hpi
      by_cases hsep : isSep c = true
      · rw [if_pos hsep] at h
        injection h with h
        subst h
        refine ⟨le_refl _, h1, h2, by rw [← hc]; exact hsep, ?_⟩
        intro k hk1 hk2
        omega
      · rw [if_neg hsep] at h
        obtain ⟨ha, hb, hcv, hd, he⟩ := ih (j + 1) e h
        refine ⟨by omega, hb, hcv, hd, ?_⟩
        intro k hk1 hk2
        rcases eq_or_lt_of_le hk1 with rfl | hlt
        · have hf : isSep c = false := by
            revert hsep; cases isSep c <;> simp
          exact ⟨h1, h2, by rw [← hc]; exact hf⟩
        · exact he k (by omega) hk2

lemma pyFindSE_ge (data sub : PyStr) (s e : Int) : -1 ≤ pyFindSE data sub s e := by
  rw [pyFindSE]
  cases pyFindCore data sub (pyNormStart data.length s) (pyNormEnd data.length e) with
  | none => exact le_refl _
  | some i =>
    show (-1 : Int) ≤ (i : Int)
    omega

lemma token_from_iteration (data : PyStr) (i s en : Int)
    (hi : 0 ≤ i)
    (hl : expandLeft data i (2 * data.length + 2) = .ok s)
    (hr : expandRight data i (2 * data.length + 2) = .ok en)
    (hne : pySlice data (s + 1) en ≠ []) :
    ∃ a b : Nat, isWholeToken data a b ∧
      pySlice data (s + 1) en = (data.take b).drop a := by
  obtain ⟨hs_le, hs0, hs1, hs_sep, hs_mid⟩ := expandLeft_spec data _ i s hl
  obtain ⟨he_le, he0, he1, he_sep, he_mid⟩ := expandRight_spec data _ i en hr
  have hen0 : (0 : Int) ≤ en := le_trans hi he_le
  have hie : idxInt data.length en = en := idxInt_of_nonneg _ _ hen0
  rw [hie] at he0 he1
  by_cases hsn : s < 0
  · -- the left scan wrapped below the text start
    have his : idxInt data.length s = (data.length : Int) + s := by
      rw [idxInt, if_pos hsn]
    rw [his] at hs0 hs1
    by_cases hs1' : s = -1
    · subst hs1'
      refine ⟨0, en.toNat, ⟨?_, by omega, ?_, Or.inl rfl, ?_⟩, ?_⟩
      · rcases Nat.eq_zero_or_pos en.toNat with hz | hp
        · exfalso
          apply hne
          rw [pySlice]
          have h2 : pyNormEnd data.length en = 0 := by
            rw [pyNormEnd, if_neg (by omega)]
            omega
          rw [h2]
          simp
        · exact hp
      · intro k hk0 hkb
        rcases le_or_lt (k : Int) i with hki | hki
        · have hmid := hs_mid (k : Int) (by omega) hki
          have hik : idxInt data.length (k : Int) = (k : Int) :=
            idxInt_of_nonneg _ _ (by omega)
          rw [pyAt, hik] at hmid
          simpa using hmid.2.2
        · have hmid := he_mid (k : Int) (by omega) (by omega)
          have hik : idxInt data.length (k : Int) = (k : Int) :=
            idxInt_of_nonneg _ _ (by omega)
          rw [pyAt, hik] at hmid
          simpa using hmid.2.2
      · have hsep' := he_sep
        rw [pyAt, hie] at hsep'
        simpa using hsep'
      · rw [pySlice]
        have h1 : pyNormStart data.length (-1 + 1) = 0 := by
          rw [pyNormStart]
          norm_num
        have h2 : pyNormEnd data.length en = en.toNat := by
          rw [pyNormEnd, if_neg (by omega)]
          omega
        rw [h1, h2]
    · -- the left scan wrapped deeper: the slice is empty, contradiction
      exfalso
      have hstart : pyNormStart data.length (s + 1) =
          ((data.length : Int) + s + 1).toNat := by
        rw [pyNormStart, if_pos (by omega)]
        congr 1
        omega
      have hend : pyNormEnd data.length en = en.toNat := by
        rw [pyNormEnd, if_neg (by omega)]
        omega
      by_cases hcmp : en ≤ (data.length : Int) + s + 1
      · apply hne
        rw [pySlice, hstart, hend]
        apply List.drop_eq_nil_of_le
        rw [List.length_take]
        omega
      · push_neg at hcmp
        have hk := hs_mid (en - data.length) (by omega) (by omega)
        have hneg : en - (data.length : Int) < 0 := by omega
        have hidx : idxInt data.length (en - data.length) = en := by
          rw [idxInt, if_pos hneg]
          omega
        rw [pyAt, hidx] at hk
        have hsep' := he_sep
        rw [pyAt, hie] at hsep'
        rw [hk.2.2] at hsep'
        exact Bool.noConfusion hsep'
  · -- the left scan stopped at a separator inside the text
    push_neg at hsn
    have his : idxInt data.length s = s := idxInt_of_nonneg _ _ hsn
    rw [his] at hs0 hs1
    have h1 : pyNormStart data.length (s + 1) = s.toNat + 1 := by
      rw [pyNormStart, if_neg (by omega)]
      omega
    have h2 : pyNormEnd data.length en = en.toNat := by
      rw [pyNormEnd, if_neg (by omega)]
      omega
    have hsi : s < i := by
      rcases eq_or_lt_of_le hs_le with heq | h
      · exfalso
        rcases eq_or_lt_of_le he_le with heq2 | hlt
        · apply hne
          rw [pySlice, h1, h2]
          apply List.drop_eq_nil_of_le
          rw [List.length_take]
          omega
        · have hmid := he_mid i (le_refl _) hlt
          have hik : idxInt data.length i = i := idxInt_of_nonneg _ _ hi
          rw [pyAt, hik] at hmid
          have hsp := hs_sep
          rw [heq, pyAt, hik] at hsp
          rw [hmid.2.2] at hsp
          exact Bool.noConfusion hsp
      · exact h
    refine ⟨s.toNat + 1, en.toNat, ⟨?_, by omega, ?_, ?_, ?_⟩, ?_⟩
    · by_contra hab
      push_neg at hab
      apply hne
      rw [pySlice, h1, h2]
      apply List.drop_eq_nil_of_le
      rw [List.length_take]
      omega
    · intro k hka hkb
      rcases le_or_lt (k : Int) i with hki | hki
      · have hmid := hs_mid (k : Int) (by omega) hki
        have hik : idxInt data.length (k : Int) = (k : Int) :=
          idxInt_of_nonneg _ _ (by omega)
        rw [pyAt, hik] at hmid
        simpa using hmid.2.2
      · have hmid := he_mid (k : Int) (by omega) (by omega)
        have hik : idxInt data.length (k : Int) = (k : Int) :=
          idxInt_of_nonneg _ _ (by omega)
        rw [pyAt, hik] at hmid
        simpa using hmid.2.2
    · refine Or.inr ?_
      have hsp := hs_sep
      rw [pyAt, his] at hsp
      have harg : s.toNat + 1 - 1 = s.toNat := by omega
      rw [harg]
      exact hsp
    · have hsep' := he_sep
      rw [pyAt, hie] at hsep'
      exact hsep'
    · rw [pySlice, h1, h2]

lemma scanLoop_ok_true (mfdir data pstr name : PyStr) (saEnd : Int) :
    ∀ (fuel : Nat) (i : Int), -1 ≤ i →
      Makefile.scanLoop mfdir data pstr name saEnd i fuel = .ok true →
      ∃ a b, isWholeToken data a b ∧
        ∃ t, Makefile.sanitise mfdir ((data.take b).drop a) = .ok t ∧
          pyStartswith t pstr = true := by
  intro fuel
  induction fuel with
  | zero =>
    intro i hi h
    simp [Makefile.scanLoop] at h
  | succ f ih =>
    intro i hi h
    rw [Makefile.scanLoop] at h
    by_cases hneg : i = -1
    · rw [if_pos hneg] at h
      simp at h
    · rw [if_neg hneg] at h
      have hi0 : (0 : Int) ≤ i := by omega
      cases hl : expandLeft data i (2 * data.length + 2) with
      | error e => simp [hl] at h
      | ok s =>
        simp only [hl] at h
        cases hr : expandRight data i (2 * data.length + 2) with
        | error e => simp [hr] at h
        | ok en =>
          simp only [hr] at h
          cases hsan : Makefile.sanitise mfdir (pySlice data (s + 1) en) with
          | error e => simp [hsan] at h
          | ok t =>
            simp only [hsan] at h
            by_cases hsw : pyStartswith t pstr = true
            · have hslice_ne : pySlice data (s + 1) en ≠ [] := by
                intro hq
                rw [hq] at hsan
                simp [Makefile.sanitise] at hsan
              obtain ⟨a, b, htok, heq⟩ :=
                token_from_iteration data i s en hi0 hl hr hslice_ne
              exact ⟨a, b, htok, t, heq ▸ hsan, hsw⟩
            · rw [if_neg hsw] at h
              exact ih (pyFindSE data name (en + 1) saEnd)
                (pyFindSE_ge data name (en + 1) saEnd) h

/-- C2: whenever `Makefile.has_path` reports a match, some whole
separator-delimited token of the build script text sanitises to a string
that starts with the candidate path; an occurrence of the candidate name
that is a bare substring of a longer token is never by itself sufficient —
the whole token is recovered and compared. -/
theorem has_path_whole_token (mfdir data cand : PyStr)
    (h : Makefile.has_path mfdir data cand = .ok true) :
    ∃ a b, isWholeToken data a b ∧
      ∃ t, Makefile.sanitise mfdir ((data.take b).drop a) = .ok t ∧
        pyStartswith t (pathStr cand) = true := by
  simp only [Makefile.has_path] at h
  by_cases hm : pyFindFull data compileMarker = -1
  · rw [if_pos hm] at h
    simp at h
  · rw [if_neg hm] at h
    exact scanLoop_ok_true mfdir data (pathStr cand) (pathName cand)
      (pyFindFull data installMarker) (data.length + 2)
      (pyFindSE data (pathName cand) (pyFindFull data compileMarker)
        (pyFindFull data installMarker))
      (pyFindSE_ge data (pathName cand) _ _) h

/-- C2 witness: a concrete matching run on a small script. -/
theorem has_path_whole_token_witness :
    Makefile.has_path "/b".toList "####### Compile\n/q/lib.c\n".toList
      "/q/lib.c".toList = .ok true ∧
    ∃ a b, isWholeToken "####### Compile\n/q/lib.c\n".toList a b ∧
      ∃ t, Makefile.sanitise "/b".toList
          (("####### Compile\n/q/lib.c\n".toList.take b).drop a) = .ok t ∧
        pyStartswith t (pathStr "/q/lib.c".toList) = true :=
  ⟨by rfl, has_path_whole_token _ _ _ (by rfl)⟩

lemma usedTrue_of_ok (mfdir d : PyStr) (l : LibAttrs) (u : Bool)
    (h : Library.used mfdir d l = .ok u) : usedTrue mfdir d l = u := by
  rw [usedTrue, h]
  cases u <;> rfl

lemma processScript_ok (mfdir d : PyStr) :
    ∀ (pending : List LibAttrs) (r : List LibAttrs × List LibAttrs),
      processScript mfdir d pending = .ok r →
      r = (pending.filter (fun l => usedTrue mfdir d l),
           pending.filter (fun l => !usedTrue mfdir d l)) := by
  intro pending
  induction pending with
  | nil =>
    intro r h
    rw [processScript] at h
    injection h with h
    simp [← h]
  | cons l ls ih =>
    intro r h
    rw [processScript] at h
    cases hu : Library.used mfdir d l with
    | error e => simp [hu] at h
    | ok u =>
      simp only [hu] at h
      cases hp : processScript mfdir d ls with
      | error e => simp [hp] at h
      | ok pr =>
        obtain ⟨ex, rem⟩ := pr
        simp only [hp] at h
        injection h with h
        have hih := ih (ex, rem) hp
        injection hih with h1 h2
        subst h1
        subst h2
        subst h
        have hul := usedTrue_of_ok mfdir d l u hu
        cases u with
        | true => simp [List.filter_cons, hul]
        | false => simp [List.filter_cons, hul]

lemma detectRun_trace_mem :
    ∀ (scripts : List (PyStr × PyStr)) (pending tr fin : List LibAttrs),
      detectRun pending scripts = .ok (tr, fin) →
      ∀ x, x ∈ tr ↔ x ∈ pending ∧ ∃ sc, sc ∈ scripts ∧ usedTrue sc.1 sc.2 x = true := by
  intro scripts
  induction scripts with
  | nil =>
    intro pending tr fin h x
    rw [detectRun] at h
    injection h with h
    injection h with h1 h2
    subst h1
    simp
  | cons sc ss ih =>
    intro pending tr fin h x
    rw [detectRun] at h
    cases hp : processScript sc.1 sc.2 pending with
    | error e => simp [hp] at h
    | ok pr =>
      obtain ⟨ex, rem⟩ := pr
      simp only [hp] at h
      cases hd : detectRun rem ss with
      | error e => simp [hd] at h
      | ok pr2 =>
        obtain ⟨tr2, fin2⟩ := pr2
        simp only [hd] at h
        injection h with h
        injection h with h1 h2
        subst h1
        have hpr := processScript_ok sc.1 sc.2 pending (ex, rem) hp
        injection hpr with hex hrem
        have hih := ih rem tr2 fin2 hd
        constructor
        · intro hx
          rcases List.mem_append.mp hx with hx | hx
          · rw [hex] at hx
            have hm := List.mem_filter.mp hx
            exact ⟨hm.1, sc, List.mem_cons_self sc ss, hm.2⟩
          · obtain ⟨hxr, sc', hsc', hu⟩ := (hih x).mp hx
            have hxp : x ∈ pending := by
              rw [hrem] at hxr
              exact (List.mem_filter.mp hxr).1
            exact ⟨hxp, sc', List.mem_cons_of_mem sc hsc', hu⟩
        · rintro ⟨hxp, sc', hsc', hu⟩
          rcases List.mem_cons.mp hsc' with rfl | hsc'
          · apply List.mem_append.mpr
            left
            rw [hex]
            exact List.mem_filter.mpr ⟨hxp, hu⟩
          · by_cases hus : usedTrue sc.1 sc.2 x = true
            · apply List.mem_append.mpr
              left
              rw [hex]
              exact List.mem_filter.mpr ⟨hxp, hus⟩
            · apply List.mem_append.mpr
              right
              apply (hih x).mpr
              refine ⟨?_, sc', hsc', hu⟩
              rw [hrem]
              refine List.mem_filter.mpr ⟨hxp, ?_⟩
              have hf : usedTrue sc.1 sc.2 x = false := by
                revert hus
                cases usedTrue sc.1 sc.2 x <;> simp
              simp [hf]

/-- C6: detection is order-independent — two completed runs of the matching
loop over permuted lists of build scripts export the same set of library
ids. -/
theorem detect_order_independent (libs : List LibAttrs)
    (scripts scripts' : List (PyStr × PyStr)) (r r' : List LibAttrs × List LibAttrs)
    (hperm : List.Perm scripts scripts')
    (h1 : detectRun libs scripts = .ok r)
    (h2 : detectRun libs scripts' = .ok r') :
    (r.1.map LibAttrs.Id).toFinset = (r'.1.map LibAttrs.Id).toFinset := by
  obtain ⟨tr, fin⟩ := r
  obtain ⟨tr', fin'⟩ := r'
  have m1 := detectRun_trace_mem scripts libs tr fin h1
  have m2 := detectRun_trace_mem scripts' libs tr' fin' h2
  ext x
  simp only [List.mem_toFinset, List.mem_map]
  constructor
  · rintro ⟨l, hl, rfl⟩
    obtain ⟨hp, sc, hsc, hu⟩ := (m1 l).mp hl
    exact ⟨l, (m2 l).mpr ⟨hp, sc, hperm.mem_iff.mp hsc, hu⟩, rfl⟩
  · rintro ⟨l, hl, rfl⟩
    obtain ⟨hp, sc, hsc, hu⟩ := (m2 l).mp hl
    exact ⟨l, (m1 l).mpr ⟨hp, sc, hperm.mem_iff.mpr hsc, hu⟩, rfl⟩

/-- C6 witness: swapping two concrete build scripts leaves the exported id
set unchanged. -/
theorem detect_order_independent_witness :
    List.Perm [scriptA, scriptN] [scriptN, scriptA] ∧
    detectRun [libARec, libBRec] [scriptA, scriptN] = .ok ([libARec], [libBRec]) ∧
    detectRun [libARec, libBRec] [scriptN, scriptA] = .ok ([libARec], [libBRec]) ∧
    ((([libARec], [libBRec]) : List LibAttrs × List LibAttrs).1.map LibAttrs.Id).toFinset =
      ((([libARec], [libBRec]) : List LibAttrs × List LibAttrs).1.map LibAttrs.Id).toFinset :=
  ⟨List.Perm.swap scriptN scriptA [], by rfl, by rfl,
    detect_order_independent [libARec, libBRec] [scriptA, scriptN] [scriptN, scriptA]
      ([libARec], [libBRec]) ([libARec], [libBRec])
      (List.Perm.swap scriptN scriptA []) (by rfl) (by rfl)⟩

/-- C7: at-most-once emission — in one completed run of the matching loop
over libraries with distinct ids, the trace of exported libraries carries no
id twice; once a library is removed from the pending set it is never
reconsidered. -/
theorem detect_at_most_once :
    ∀ (scripts : List (PyStr × PyStr)) (libs tr fin : List LibAttrs),
      (libs.map LibAttrs.Id).Nodup →
      detectRun libs scripts = .ok (tr, fin) →
      (tr.map LibAttrs.Id).Nodup := by
  intro scripts
  induction scripts with
  | nil =>
    intro libs tr fin hnd h
    rw [detectRun] at h
    injection h with h
    injection h with h1 h2
    subst h1
    simp
  | cons sc ss ih =>
    intro libs tr fin hnd h
    rw [detectRun] at h
    cases hp : processScript sc.1 sc.2 libs with
    | error e => simp [hp] at h
    | ok pr =>
      obtain ⟨ex, rem⟩ := pr
      simp only [hp] at h
      cases hd : detectRun rem ss with
      | error e => simp [hd] at h
      | ok pr2 =>
        obtain ⟨tr2, fin2⟩ := pr2
        simp only [hd] at h
        injection h with h
        injection h with h1 h2
        subst h1
        have hpr := processScript_ok sc.1 sc.2 libs (ex, rem) hp
        injection hpr with hex hrem
        have hsub_ex : List.Sublist ex libs := by
          rw [hex]; exact List.filter_sublist libs
        have hsub_rem : List.Sublist rem libs := by
          rw [hrem]; exact List.filter_sublist libs
        rw [List.map_append, List.nodup_append]
        refine ⟨List.Nodup.sublist (hsub_ex.map LibAttrs.Id) hnd,
          ih rem tr2 fin2 (List.Nodup.sublist (hsub_rem.map LibAttrs.Id) hnd) hd, ?_⟩
        intro x hx1 hx2
        obtain ⟨l1, hl1, hid1⟩ := List.mem_map.mp hx1
        obtain ⟨l2, hl2, hid2⟩ := List.mem_map.mp hx2
        have hl2r : l2 ∈ rem :=
          ((detectRun_trace_mem ss rem tr2 fin2 hd l2).mp hl2).1
        rw [hex] at hl1
        rw [hrem] at hl2r
        have hm1 := List.mem_filter.mp hl1
        have hm2 := List.mem_filter.mp hl2r
        have heq : l1 = l2 :=
          List.inj_on_of_nodup_map hnd hm1.1 hm2.1 (hid1.trans hid2.symm)
        have hu1 := hm1.2
        rw [heq] at hu1
        have hu2 := hm2.2
        simp [hu1] at hu2

/-- C7 witness: a library whose signature appears in two scanned scripts is
exported exactly once. -/
theorem detect_at_most_once_witness :
    (([libARec, libBRec].map LibAttrs.Id).Nodup) ∧
    detectRun [libARec, libBRec] [scriptA, scriptA2] = .ok ([libARec], [libBRec]) ∧
    (([libARec] : List LibAttrs).map LibAttrs.Id).Nodup :=
  ⟨by decide, by rfl,
    detect_at_most_once [scriptA, scriptA2] [libARec, libBRec] [libARec] [libBRec]
      (by decide) (by rfl)⟩
